import Mathlib

/-!
Shallow embedding of the SuperTuple C++ library (rodriados/supertuple).

A `tuple_t` is an ordered, fixed-arity sequence of values; the C++ type
resolves every index at compile time, so the embedding models a tuple of
element type `α` as a `List α` whose length is the arity.  The storage
layer (`detail::leaf_t`, one indexed leaf per slot, selected by overload
resolution on its index) is modelled explicitly by `leaf_t`, `mkLeaves`
and `access`.  Each combinator is translated from its pack expansion in
the source: an expansion `f(get<I>(t))...` over the index sequence
`0..N-1` becomes the corresponding structural recursion or `List.ofFn`
over positions.
-/

namespace SuperTuple

/-- Storage unit from `detail/leaf.hpp`: `leaf_t<I, T>` holds the single
value of the tuple slot at compile-time position `I`. -/
structure leaf_t (α : Type) where
  index : Nat
  value : α
deriving DecidableEq, Repr

/-- Construction of the leaf bases from `tuple_t::tuple_t(U&&... value)`:
leaf `I` is initialized with argument `I`, for `I` in `0..N-1`.  The
`start` parameter carries the position of the first remaining value. -/
def mkLeaves {α : Type} (start : Nat) : List α → List (leaf_t α)
  | [] => []
  | v :: vs => { index := start, value := v } :: mkLeaves (start + 1) vs

/-- Leaf selection from `detail::access<J>` / `operation::get<J>`: among
the tuple's leaf bases, the one whose compile-time index is `J` is chosen
(overload resolution on the index); its value is returned.  `none` models
the compile-time error for an out-of-range position. -/
def access {α : Type} (i : Nat) : List (leaf_t α) → Option α
  | [] => none
  | l :: ls => if l.index = i then some l.value else access i ls

/-- A tuple of element type `α` is its ordered sequence of stored values
(`tuple_t<T...>` with every `T` embedded as `α`); the arity is the
length. -/
abbrev tuple_t (α : Type) : Type := List α

/-- Leaf bases of a tuple, as built by construction from a value list. -/
def leavesOf {α : Type} (t : tuple_t α) : List (leaf_t α) :=
  mkLeaves 0 t

/-- Positional retrieval `operation::get<I>(t)` at list level: the value
stored in slot `i`. -/
def get {α : Type} (t : tuple_t α) (i : Nat) (h : i < t.length) : α :=
  t.get ⟨i, h⟩

/-- Functor flip from `detail::flip`: `flip(lambda)(x, y) = lambda(y, x)`. -/
def flip {α β γ : Type} (f : α → β → γ) : β → α → γ :=
  fun y x => f x y

/-- The fold algorithm from `detail::fold` (fold.hpp): the empty index
sequence returns the base; a step consumes the next index `I`, replacing
the base by `lambda(base, get<I>(t))`.  Walking the full index sequence
`0..N-1` over the tuple is structural recursion on the element list. -/
def fold {α β : Type} (f : β → α → β) (base : β) : List α → β
  | [] => base
  | x :: xs => fold f (f base x) xs

/-- Left fold with base, `operation::foldl(t, lambda, base)`: folds the
whole index sequence `0..N-1`. -/
def foldl {α β : Type} (t : tuple_t α) (f : β → α → β) (base : β) : β :=
  fold f base t

/-- Left fold without base, `operation::foldl(t, lambda)`: requires index
sequence `<0, I...>` (a non-empty tuple, `none` models the compile-time
rejection of the empty one); seeds with `head(t)` and folds indices
`1..N-1`. -/
def foldl1 {α : Type} (f : α → α → α) : tuple_t α → Option α
  | [] => none
  | x :: xs => some (fold f x xs)

/-- Right fold with base, `operation::foldr(t, lambda, base)`: folds the
reversed index sequence `(N-I-1)...` with the flipped functor. -/
def foldr {α β : Type} (t : tuple_t α) (f : α → β → β) (base : β) : β :=
  fold (flip f) base t.reverse

/-- Right fold without base, `operation::foldr(t, lambda)`: requires a
non-empty tuple (`none` models the compile-time rejection); seeds with
`last(t)` and folds indices `N-2` down to `0` with the flipped functor. -/
def foldr1 {α : Type} (f : α → α → α) : tuple_t α → Option α
  | [] => none
  | x :: xs =>
      some (fold (flip f) ((x :: xs).getLast (List.cons_ne_nil x xs))
        ((x :: xs).dropLast.reverse))

/-- The scan algorithm from `detail::scan` (scan.hpp): the empty index
sequence yields the one-element tuple holding the base; a step prepends
the current base to the scan of the remaining indices with the updated
base `lambda(base, get<I>(t))`. -/
def scan {α β : Type} (f : β → α → β) (base : β) : List α → List β
  | [] => [base]
  | x :: xs => base :: scan f (f base x) xs

/-- Left scan with base, `operation::scanl(t, lambda, base)`: scans the
whole index sequence `0..N-1`. -/
def scanl {α β : Type} (t : tuple_t α) (f : β → α → β) (base : β) : tuple_t β :=
  scan f base t

/-- Left scan without base, `operation::scanl(t, lambda)`: requires a
non-empty tuple (`none` models the compile-time rejection); seeds with
`head(t)` and scans indices `1..N-1`. -/
def scanl1 {α : Type} (f : α → α → α) : tuple_t α → Option (tuple_t α)
  | [] => none
  | x :: xs => some (scan f x xs)

/-- Tuple reversal `operation::reverse(t)` (reverse.hpp): the result is
built from `get<N-I-1>(t)` for `I` in `0..N-1`, so position `i` of the
result holds the source element at position `N-1-i`. -/
def reverse {α : Type} (t : tuple_t α) : tuple_t α :=
  List.ofFn fun i : Fin t.length =>
    t.get ⟨t.length - 1 - i.val, by have := i.isLt; omega⟩

/-- Right scan with base, `operation::scanr(t, lambda, base)`: scans the
reversed index sequence `(N-I-1)...` with the flipped functor, then
reverses the result with `operation::reverse`. -/
def scanr {α β : Type} (t : tuple_t α) (f : α → β → β) (base : β) : tuple_t β :=
  reverse (scan (flip f) base t.reverse)

/-- Right scan without base, `operation::scanr(t, lambda)`: requires a
non-empty tuple (`none` models the compile-time rejection); seeds with
`last(t)`, scans indices `N-2` down to `0` with the flipped functor and
reverses the result. -/
def scanr1 {α : Type} (f : α → α → α) : tuple_t α → Option (tuple_t α)
  | [] => none
  | x :: xs =>
      some (reverse (scan (flip f) ((x :: xs).getLast (List.cons_ne_nil x xs))
        ((x :: xs).dropLast.reverse)))

/-- Tuple concatenation `operation::concat(a, b)` (concat.hpp): the
result is built from `get<I>(a)...` followed by `get<J>(b)...`, so it is
a's elements in order followed by b's elements in order. -/
def concat {α : Type} (a b : tuple_t α) : tuple_t α :=
  a ++ b

/-- Element prepending `operation::prepend(t, element)` (prepend.hpp):
the result is built from `element` followed by `get<I>(t)...`. -/
def prepend {α : Type} (t : tuple_t α) (e : α) : tuple_t α :=
  e :: t

/-- Element appending `operation::append(t, element)`: the result is
built from `get<I>(t)...` followed by `element`. -/
def append {α : Type} (t : tuple_t α) (e : α) : tuple_t α :=
  t ++ [e]

/-- Head removal `operation::tail(t)` (tail.hpp): requires index sequence
`<0, I...>` (a non-empty tuple; the `[]` case is unreachable because the
C++ overload rejects empty tuples at compile time) and keeps the elements
at positions `1..N-1`. -/
def tail {α : Type} : tuple_t α → tuple_t α
  | [] => []
  | _ :: xs => xs

/-- Last-element removal `operation::init(t)` (init.hpp): requires a
non-empty tuple (the empty case is unreachable because the C++ overload
rejects it at compile time) and keeps positions `0..N-2`, built from
`get<I-1>(t)` for `I` in `1..N-1`. -/
def init {α : Type} (t : tuple_t α) : tuple_t α :=
  t.dropLast

/-- Pair specialization `pair_t<T, U>` with the `first()` and `second()`
accessors aliasing positions `0` and `1`. -/
structure pair_t (α β : Type) where
  first : α
  second : β
deriving DecidableEq, Repr

/-- Tuple zipping `operation::zip(a, b)` (zip.hpp): both arguments carry
the same index sequence (equal arity, enforced at compile time), and the
result is built from `pair_t(get<I>(a), get<I>(b))...`. -/
def zip {α β : Type} (a : tuple_t α) (b : tuple_t β) : tuple_t (pair_t α β) :=
  List.zipWith pair_t.mk a b

/-! Helper lemmas bridging the source-mirroring definitions to standard
list facts. -/

theorem access_mkLeaves {α : Type} (vs : List α) (start i : Nat)
    (h : i < vs.length) :
    access (start + i) (mkLeaves start vs) = some (vs.get ⟨i, h⟩) := by
  induction vs generalizing start i with
  | nil => simp at h
  | cons v vs ih =>
      cases i with
      | zero => simp [mkLeaves, access]
      | succ j =>
          have hj : j < vs.length := by simpa using h
          have hne : start ≠ start + (j + 1) := by omega
          have := ih (start + 1) j hj
          simp only [mkLeaves, access, hne, if_false]
          rw [show start + (j + 1) = (start + 1) + j by omega]
          simpa using this

theorem access_mkLeaves_none {α : Type} (vs : List α) (start i : Nat)
    (h : start + vs.length ≤ i) :
    access i (mkLeaves start vs) = none := by
  induction vs generalizing start with
  | nil => simp [mkLeaves, access]
  | cons v vs ih =>
      have hne : start ≠ i := by simp at h; omega
      have : (start + 1) + vs.length ≤ i := by simp at h; omega
      simp [mkLeaves, access, hne, ih (start + 1) this]

theorem fold_eq_foldl {α β : Type} (f : β → α → β) (b : β) (t : List α) :
    fold f b t = List.foldl f b t := by
  induction t generalizing b with
  | nil => rfl
  | cons x xs ih => simp [fold, List.foldl, ih]

theorem foldr_eq_listFoldr {α β : Type} (t : tuple_t α) (f : α → β → β)
    (b : β) : foldr t f b = List.foldr f b t := by
  simp [foldr, fold_eq_foldl, flip, List.foldl_reverse]

theorem foldr1_eq {α : Type} (f : α → α → α) (l : List α) (h : l ≠ []) :
    foldr1 f l = some (fold (flip f) (l.getLast h) l.dropLast.reverse) := by
  cases l with
  | nil => exact absurd rfl h
  | cons x xs => rfl

theorem scan_length {α β : Type} (f : β → α → β) (b : β) (t : List α) :
    (scan f b t).length = t.length + 1 := by
  induction t generalizing b with
  | nil => rfl
  | cons x xs ih => simp [scan, ih]

theorem scan_eq_scanl {α β : Type} (f : β → α → β) (b : β) (t : List α) :
    scan f b t = List.scanl f b t := by
  induction t generalizing b with
  | nil => rfl
  | cons x xs ih => simp [scan, List.scanl, ih]

theorem scan_head {α β : Type} (f : β → α → β) (b : β) (t : List α) :
    (scan f b t).head? = some b := by
  cases t <;> rfl

theorem cons_getLast? {α : Type} (y : α) (l : List α) (h : l ≠ []) :
    (y :: l).getLast? = l.getLast? := by
  cases l with
  | nil => exact absurd rfl h
  | cons z zs => exact List.getLast?_cons_cons

theorem scan_getLast {α β : Type} (f : β → α → β) (b : β) (t : List α) :
    (scan f b t).getLast? = some (fold f b t) := by
  induction t generalizing b with
  | nil => rfl
  | cons x xs ih =>
      have hne : scan f (f b x) xs ≠ [] := by
        intro hc
        have := scan_length f (f b x) xs
        simp [hc] at this
      rw [scan, cons_getLast? _ _ hne, ih]
      rfl

theorem scan_getElem {α β : Type} (f : β → α → β) (b : β) (t : List α)
    (i : Nat) (h : i < (scan f b t).length) :
    (scan f b t)[i] = fold f b (t.take i) := by
  induction t generalizing b i with
  | nil =>
      have : i = 0 := by simpa [scan] using Nat.lt_one_iff.mp (by simpa [scan] using h)
      subst this
      rfl
  | cons x xs ih =>
      cases i with
      | zero => rfl
      | succ j =>
          have hj : j < (scan f (f b x) xs).length := by
            simpa [scan] using h
          simpa [scan, fold] using ih (f b x) j hj

theorem reverse_eq_listReverse {α : Type} (t : tuple_t α) :
    reverse t = t.reverse := by
  apply List.ext_getElem
  · simp [reverse]
  · intro i h1 h2
    have ht : i < t.length := by simpa [reverse] using h1
    simp [reverse, List.getElem_reverse]

theorem scanr_length {α β : Type} (t : tuple_t α) (f : α → β → β) (b : β) :
    (scanr t f b).length = t.length + 1 := by
  simp [scanr, reverse_eq_listReverse, scan_length]

theorem scanr1_eq {α : Type} (f : α → α → α) (l : List α) (h : l ≠ []) :
    scanr1 f l =
      some (reverse (scan (flip f) (l.getLast h) l.dropLast.reverse)) := by
  cases l with
  | nil => exact absurd rfl h
  | cons x xs => rfl

theorem take_reverse_eq_reverse_drop {α : Type} (t : List α) (i : Nat) :
    t.reverse.take (t.length - i) = (t.drop i).reverse := by
  have hsplit : t.reverse = (t.drop i).reverse ++ (t.take i).reverse := by
    rw [← List.reverse_append, List.take_append_drop]
  have hlen : (t.drop i).reverse.length = t.length - i := by simp
  rw [hsplit, ← hlen, List.take_left]

theorem scanr_get {α β : Type} (t : tuple_t α) (f : α → β → β) (b : β)
    (i : Nat) (h : i < (scanr t f b).length) :
    (scanr t f b).get ⟨i, h⟩ = List.foldr f b (t.drop i) := by
  have hi : i < t.length + 1 := by simpa [scanr_length] using h
  have hrev : i < (scan (flip f) b t.reverse).reverse.length := by
    simpa [scan_length] using hi
  have hidx : (scan (flip f) b t.reverse).length - 1 - i = t.length - i := by
    simp [scan_length]
  calc (scanr t f b).get ⟨i, h⟩
      = (scan (flip f) b t.reverse).reverse.get ⟨i, hrev⟩ := by
        simp [scanr, reverse_eq_listReverse]
    _ = List.foldr f b (t.drop i) := by
        rw [List.get_eq_getElem, List.getElem_reverse, scan_getElem, hidx,
          take_reverse_eq_reverse_drop t i]
        have hfr := foldr_eq_listFoldr (t.drop i) f b
        simp only [foldr] at hfr
        exact hfr

theorem zip_get {α β : Type} (a : tuple_t α) (b : tuple_t β) (i : Nat)
    (h : i < (zip a b).length) (ha : i < a.length) (hb : i < b.length) :
    (zip a b).get ⟨i, h⟩ = pair_t.mk (a.get ⟨i, ha⟩) (b.get ⟨i, hb⟩) := by
  simp [zip, List.get_eq_getElem, List.getElem_zipWith]

theorem zip_map_first {α β : Type} (a : tuple_t α) (b : tuple_t β)
    (h : a.length = b.length) :
    (zip a b).map pair_t.first = a := by
  induction a generalizing b with
  | nil => rfl
  | cons x xs ih =>
      cases b with
      | nil => simp at h
      | cons y ys =>
          have hl : xs.length = ys.length := by simpa using h
          have hrec := ih ys hl
          simp only [zip] at hrec
          simp [zip, List.zipWith, hrec]

theorem zip_map_second {α β : Type} (a : tuple_t α) (b : tuple_t β)
    (h : a.length = b.length) :
    (zip a b).map pair_t.second = b := by
  induction a generalizing b with
  | nil => cases b with
      | nil => rfl
      | cons y ys => simp at h
  | cons x xs ih =>
      cases b with
      | nil => simp at h
      | cons y ys =>
          have hl : xs.length = ys.length := by simpa using h
          have hrec := ih ys hl
          simp only [zip] at hrec
          simp [zip, List.zipWith, hrec]

/-! Model of tuple equality (`operator==` and `operator!=` in the main
tuple header).  The element universe `elem_t` has two distinct element
types so that the type-level notion "this pair of element types has no
equality operator" is representable: values built from different
constructors model elements of types with no common `operator==`. -/

/-- Element universe for the equality model: an integer-typed element or
a string-typed element.  Distinct constructors model distinct C++ element
types that cannot be compared with each other. -/
inductive elem_t : Type where
  | num (v : Int)
  | txt (s : String)
deriving DecidableEq, Repr

/-- Whether the two elements' types admit `operator==` between them (the
`std::void_t<decltype(T == U)...>` constraint of the first overload). -/
def comparable : elem_t → elem_t → Bool
  | .num _, .num _ => true
  | .txt _, .txt _ => true
  | _, _ => false

/-- Element comparison `get<I>(a) == get<I>(b)`; only ever reached on
comparable pairs. -/
def elemEq : elem_t → elem_t → Bool
  | .num x, .num y => x == y
  | .txt x, .txt y => x == y
  | _, _ => false

/-- Tuple equality: the first `operator==` overload applies when both
tuples carry the same index sequence (equal arity) and every
corresponding pair of element types is comparable, and then compares all
pairs with a conjunction fold; otherwise the catch-all overload returns
`false` unconditionally. -/
def tupleEq (a b : tuple_t elem_t) : Bool :=
  if a.length = b.length ∧ ((a.zip b).all fun p => comparable p.1 p.2) = true
  then (a.zip b).all fun p => elemEq p.1 p.2
  else false

/-- Tuple inequality `operator!=`: the negation of `operator==`. -/
def tupleNe (a b : tuple_t elem_t) : Bool :=
  !(tupleEq a b)

/-! Model of the reference-gathering combinator `operation::tie`
(tie.hpp).  A reference-typed tuple element holds no value of its own: it
aliases a caller-owned storage cell.  The embedding makes the caller's
storage explicit as a list of integer cells addressed by position, and a
tied tuple is the list of addresses of the cells it aliases. -/

/-- Caller-owned storage: a sequence of mutable integer cells. -/
abbrev store_t : Type := List Int

/-- Read a cell through a reference (address). -/
def readRef (s : store_t) (r : Nat) : Int :=
  s.getD r 0

/-- Write a cell through a reference (address). -/
def writeRef (s : store_t) (r : Nat) (v : Int) : store_t :=
  s.set r v

/-- Reference gathering `operation::tie(ref...)`: the resulting tuple is
`tuple_t<T&...>(ref...)`, the tuple of the gathered references — it
stores the aliases, not copies of the values. -/
def tie (addrs : List Nat) : List Nat :=
  addrs

/-- Reading a reference-typed tuple: every element reads through its
stored reference. -/
def readTuple (s : store_t) (refs : List Nat) : tuple_t Int :=
  refs.map (readRef s)

/-- Elementwise tuple assignment (`operator=` of the tuple over the
swallow expansion): position `i` of the destination is assigned from
value `i`, writing through the destination's reference for each position
in order. -/
def assignTuple (s : store_t) (dst : List Nat) (vals : List Int) : store_t :=
  fold (fun acc p => writeRef acc p.1 p.2) s (dst.zip vals)

theorem elemEq_comparable {x y : elem_t} (h : elemEq x y = true) :
    comparable x y = true := by
  cases x <;> cases y <;> simp_all [elemEq, comparable]

theorem zipAll_iff {α β : Type} (p : α → β → Bool) :
    ∀ (a : List α) (b : List β), a.length = b.length →
      (((a.zip b).all fun q => p q.1 q.2) = true ↔
        ∀ (i : Nat) (ha : i < a.length) (hb : i < b.length),
          p (a.get ⟨i, ha⟩) (b.get ⟨i, hb⟩) = true) := by
  intro a
  induction a with
  | nil =>
      intro b h
      simp [List.zip]
  | cons x xs ih =>
      intro b h
      cases b with
      | nil => simp at h
      | cons y ys =>
          have hl : xs.length = ys.length := by simpa using h
          constructor
          · intro hall i ha hb
            simp [List.zip] at hall
            cases i with
            | zero => simpa using hall.1
            | succ j =>
                have hja : j < xs.length := by simpa using ha
                have hjb : j < ys.length := by simpa using hb
                have := (ih ys hl).mp (by
                  simp [List.zip]
                  intro u w hw
                  exact hall.2 u w hw)
                simpa using this j hja hjb
          · intro hpt
            simp [List.zip]
            refine ⟨by simpa using hpt 0 (by simp) (by simp), ?_⟩
            have := (ih ys hl).mpr (by
              intro j hja hjb
              simpa using hpt (j + 1) (by simpa using hja) (by simpa using hjb))
            simp [List.zip] at this
            intro u w hw
            exact this u w hw

theorem tupleEq_iff (a b : tuple_t elem_t) :
    tupleEq a b = true ↔
      a.length = b.length
      ∧ ∀ (i : Nat) (ha : i < a.length) (hb : i < b.length),
          elemEq (a.get ⟨i, ha⟩) (b.get ⟨i, hb⟩) = true := by
  unfold tupleEq
  by_cases hc : a.length = b.length
      ∧ ((a.zip b).all fun p => comparable p.1 p.2) = true
  · rw [if_pos hc]
    constructor
    · intro hall
      exact ⟨hc.1, fun i ha hb => ((zipAll_iff _ a b hc.1).mp hall) i ha hb⟩
    · intro hpt
      exact (zipAll_iff _ a b hpt.1).mpr hpt.2
  · rw [if_neg hc]
    constructor
    · intro hfalse
      simp at hfalse
    · intro hpt
      exact absurd
        ⟨hpt.1, (zipAll_iff _ a b hpt.1).mpr
          (fun i ha hb => elemEq_comparable (hpt.2 i ha hb))⟩ hc

theorem tupleEq_length_ne {a b : tuple_t elem_t} (h : a.length ≠ b.length) :
    tupleEq a b = false := by
  unfold tupleEq
  rw [if_neg]
  intro hc
  exact h hc.1

theorem tupleEq_incomparable {a b : tuple_t elem_t} (i : Nat)
    (ha : i < a.length) (hb : i < b.length)
    (hp : comparable (a.get ⟨i, ha⟩) (b.get ⟨i, hb⟩) = false) :
    tupleEq a b = false := by
  unfold tupleEq
  rw [if_neg]
  intro hc
  have := (zipAll_iff (fun x y => comparable x y) a b hc.1).mp hc.2 i ha hb
  rw [this] at hp
  cases hp

theorem readRef_writeRef_self :
    ∀ (s : store_t) (r : Nat) (v : Int), r < s.length →
      readRef (writeRef s r v) r = v := by
  intro s
  induction s with
  | nil => intro r v h; simp at h
  | cons x xs ih =>
      intro r v h
      cases r with
      | zero => rfl
      | succ j =>
          have hj : j < xs.length := by simpa using h
          simpa [readRef, writeRef, List.set, List.getD] using ih j v hj

/-! Claim theorems. -/

/-- C1: a tuple of arity N constructed from the value list v0..v_{N-1}
stores value i in the storage unit (leaf) with index i, and positional
retrieval by leaf selection returns exactly that value for every i < N;
positions at or beyond the arity select no storage unit, so the
correspondence between constructor arguments and storage slots is
one-to-one. -/
theorem c1_construct_get {α : Type} (vs : List α) (i : Nat)
    (h : i < vs.length) :
    access i (leavesOf vs) = some (vs.get ⟨i, h⟩)
    ∧ ∀ j, vs.length ≤ j → access j (leavesOf vs) = none := by
  constructor
  · have := access_mkLeaves vs 0 i h
    simpa [leavesOf] using this
  · intro j hj
    exact access_mkLeaves_none vs 0 j (by omega)

theorem c1_construct_get_witness :
    access 1 (leavesOf ([5, 7, 9] : List Nat)) = some 7 := by
  have h := (c1_construct_get ([5, 7, 9] : List Nat) 1 (by decide)).1
  simpa using h

/-- C2: foldl with base is the left-associative reduction
f(f(f(base,e0),e1),e2)..., foldr with base is the right-associative
reduction f(e0,f(e1,f(e2,base)))...; the no-base foldl seeds with e0 and
folds from e1, the no-base foldr seeds with the last element; and on the
spec's example, foldl(tuple_t(2,3,2), pow) = 64 and
foldr(tuple_t(2,3,2), pow) = 512. -/
theorem c2_fold_spec {α β : Type} (t : tuple_t α) (f : β → α → β)
    (g : α → β → β) (b : β) (f1 : α → α → α) (x : α) (s : List α) :
    foldl t f b = List.foldl f b t
    ∧ foldr t g b = List.foldr g b t
    ∧ foldl1 f1 (x :: s) = some (List.foldl f1 x s)
    ∧ foldr1 f1 (s ++ [x]) = some (List.foldr f1 x s)
    ∧ foldl1 (fun u v => u ^ v) ([2, 3, 2] : tuple_t Nat) = some 64
    ∧ foldr1 (fun u v => u ^ v) ([2, 3, 2] : tuple_t Nat) = some 512 := by
  refine ⟨fold_eq_foldl f b t, foldr_eq_listFoldr t g b, ?_, ?_, by decide,
    by decide⟩
  · simp [foldl1, fold_eq_foldl]
  · rw [foldr1_eq f1 (s ++ [x]) (by simp)]
    rw [List.dropLast_concat, fold_eq_foldl, List.foldl_reverse]
    have hlast : (s ++ [x]).getLast (by simp) = x := List.getLast_concat _
    rw [hlast]
    simp [flip]

/-- C6: removing the first element of the tuple obtained by prepending e
to t gives back t, and removing the last element of the tuple obtained by
appending e to t gives back t, for every tuple t (empty included) and
element e. -/
theorem c6_roundtrip {α : Type} (t : tuple_t α) (e : α) :
    tail (prepend t e) = t ∧ init (append t e) = t :=
  ⟨rfl, List.dropLast_concat⟩

/-- C7: reverse mirrors positions (position i of the result holds the
source element at position N-1-i), and reversing twice returns the
original tuple, for all tuples including arity 0 and 1. -/
theorem c7_reverse_spec {α : Type} (t : tuple_t α) :
    (reverse t).length = t.length
    ∧ (∀ (i : Nat) (h : i < (reverse t).length)
        (h' : t.length - 1 - i < t.length),
        (reverse t).get ⟨i, h⟩ = t.get ⟨t.length - 1 - i, h'⟩)
    ∧ reverse (reverse t) = t := by
  refine ⟨by simp [reverse_eq_listReverse], ?_,
    by simp [reverse_eq_listReverse]⟩
  intro i h h'
  simp [reverse_eq_listReverse, List.get_eq_getElem, List.getElem_reverse]

theorem c7_reverse_spec_witness :
    (reverse ([4, 5, 6] : tuple_t Nat)).get ⟨0, by decide⟩ = 6 := by
  have h := (c7_reverse_spec ([4, 5, 6] : tuple_t Nat)).2.1 0 (by decide)
    (by decide)
  exact h.trans rfl

/-- C3: scanl with base returns the full left-to-right accumulation
history in order — one element longer than the input, led by the base,
with element i the left fold of the first i input elements; the no-base
scanl keeps the input arity, seeded from the head; scanr is the
symmetric right scan whose element i is the right fold of the input
suffix from position i, in original element order; and on the spec's
example scanl(tuple_t(2,3,2), pow) = (2,8,64) and
scanr(tuple_t(2,3,2), pow) = (512,9,2). -/
theorem c3_scan_spec {α β : Type} (t : tuple_t α) (f : β → α → β)
    (g : α → β → β) (b : β) (f1 : α → α → α) (x : α) (s : List α) :
    ((scanl t f b).length = t.length + 1
      ∧ (scanl t f b).head? = some b
      ∧ ∀ (i : Nat) (h : i < (scanl t f b).length),
          (scanl t f b).get ⟨i, h⟩ = List.foldl f b (t.take i))
    ∧ (∀ r, scanl1 f1 (x :: s) = some r →
        r.length = (x :: s).length
        ∧ ∀ (i : Nat) (h : i < r.length),
            r.get ⟨i, h⟩ = List.foldl f1 x (s.take i))
    ∧ ((scanr t g b).length = t.length + 1
      ∧ ∀ (i : Nat) (h : i < (scanr t g b).length),
          (scanr t g b).get ⟨i, h⟩ = List.foldr g b (t.drop i))
    ∧ (∀ r, scanr1 f1 (x :: s) = some r → r.length = (x :: s).length)
    ∧ scanl1 (fun u v => u ^ v) ([2, 3, 2] : tuple_t Nat) = some [2, 8, 64]
    ∧ scanr1 (fun u v => u ^ v) ([2, 3, 2] : tuple_t Nat)
        = some [512, 9, 2] := by
  refine ⟨⟨scan_length f b t, scan_head f b t, ?_⟩, ?_, ⟨scanr_length t g b,
    scanr_get t g b⟩, ?_, by decide, by decide⟩
  · intro i h
    have h2 : i < (scan f b t).length := h
    have hval := scan_getElem f b t i h2
    rw [fold_eq_foldl] at hval
    exact hval
  · intro r hr
    have hr' : scan f1 x s = r := by simpa [scanl1] using hr
    subst hr'
    refine ⟨by simpa using scan_length f1 x s, ?_⟩
    intro i h
    rw [List.get_eq_getElem, scan_getElem f1 x s i h, fold_eq_foldl]
  · intro r hr
    have hr' : reverse (scan (flip f1)
        ((x :: s).getLast (List.cons_ne_nil x s))
        (x :: s).dropLast.reverse) = r := by
      simpa [scanr1] using hr
    subst hr'
    simp [reverse_eq_listReverse, scan_length]

theorem c3_scan_spec_witness :
    ([2, 8, 64] : List Nat).length = ([2, 3, 2] : List Nat).length := by
  have h := (c3_scan_spec ([3, 2] : tuple_t Nat) (fun u v => u + v)
    (fun u v => u + v) 0 (fun u v => u ^ v) 2 [3, 2]).2.1 [2, 8, 64]
    (by decide)
  exact h.1

/-- C4: two tuples are equal exactly when they have equal arity and every
corresponding pair of elements compares equal; tuples of differing arity,
or with some corresponding pair of elements whose types are not
equality-comparable, compare unequal (false, not a failure); in
particular tuple_t(1,2) and tuple_t(1,2,3) are unequal. -/
theorem c4_eq_spec (a b : tuple_t elem_t) :
    (tupleEq a b = true ↔
      a.length = b.length
      ∧ ∀ (i : Nat) (ha : i < a.length) (hb : i < b.length),
          elemEq (a.get ⟨i, ha⟩) (b.get ⟨i, hb⟩) = true)
    ∧ (a.length ≠ b.length → tupleEq a b = false ∧ tupleNe a b = true)
    ∧ (∀ (i : Nat) (ha : i < a.length) (hb : i < b.length),
        comparable (a.get ⟨i, ha⟩) (b.get ⟨i, hb⟩) = false →
        tupleEq a b = false ∧ tupleNe a b = true)
    ∧ tupleNe [elem_t.num 1, elem_t.num 2]
        [elem_t.num 1, elem_t.num 2, elem_t.num 3] = true := by
  refine ⟨tupleEq_iff a b, ?_, ?_, by decide⟩
  · intro h
    have := tupleEq_length_ne h
    exact ⟨this, by simp [tupleNe, this]⟩
  · intro i ha hb hp
    have := tupleEq_incomparable i ha hb hp
    exact ⟨this, by simp [tupleNe, this]⟩

theorem c4_eq_spec_witness :
    tupleEq [elem_t.num 1, elem_t.num 2]
        [elem_t.num 1, elem_t.num 2, elem_t.num 3] = false
    ∧ tupleNe [elem_t.num 1, elem_t.num 2]
        [elem_t.num 1, elem_t.num 2, elem_t.num 3] = true :=
  (c4_eq_spec [elem_t.num 1, elem_t.num 2]
    [elem_t.num 1, elem_t.num 2, elem_t.num 3]).2.1 (by decide)

/-- C5: concat(a, b) has arity M + K; its element at position i < M is
a's element i, and its element at position M ≤ i < M + K is b's element
i - M. -/
theorem c5_concat_spec {α : Type} (a b : tuple_t α) :
    (concat a b).length = a.length + b.length
    ∧ (∀ (i : Nat) (hi : i < a.length) (h : i < (concat a b).length),
        (concat a b).get ⟨i, h⟩ = a.get ⟨i, hi⟩)
    ∧ (∀ (i : Nat) (hi : a.length ≤ i) (h : i < (concat a b).length)
        (hb : i - a.length < b.length),
        (concat a b).get ⟨i, h⟩ = b.get ⟨i - a.length, hb⟩) := by
  refine ⟨by simp [concat], ?_, ?_⟩
  · intro i hi h
    simp [concat, List.get_eq_getElem, List.getElem_append_left hi]
  · intro i hi h hb
    simp [concat, List.get_eq_getElem, List.getElem_append_right hi]

theorem c5_concat_spec_witness :
    (concat ([1, 2] : tuple_t Nat) [30, 40]).get ⟨2, by decide⟩ = 30 := by
  have h := (c5_concat_spec ([1, 2] : tuple_t Nat) [30, 40]).2.2 2
    (by decide) (by decide) (by decide)
  exact h.trans rfl

/-- C8: zipping two tuples of equal arity N yields a tuple of N pairs
whose pair i is (a_i, b_i), and extracting first (resp. second) of every
pair reconstructs a (resp. b). -/
theorem c8_zip_spec {α β : Type} (a : tuple_t α) (b : tuple_t β)
    (h : a.length = b.length) :
    (zip a b).length = a.length
    ∧ (∀ (i : Nat) (hz : i < (zip a b).length) (ha : i < a.length)
        (hb : i < b.length),
        (zip a b).get ⟨i, hz⟩ = pair_t.mk (a.get ⟨i, ha⟩) (b.get ⟨i, hb⟩))
    ∧ (zip a b).map pair_t.first = a
    ∧ (zip a b).map pair_t.second = b := by
  exact ⟨by simp [zip, h], zip_get a b, zip_map_first a b h,
    zip_map_second a b h⟩

theorem c8_zip_spec_witness :
    (zip ([1, 2] : tuple_t Nat) ([5, 6] : tuple_t Nat)).map pair_t.first
      = [1, 2] :=
  (c8_zip_spec ([1, 2] : tuple_t Nat) ([5, 6] : tuple_t Nat)
    (by decide)).2.2.1

/-- C9: a tied tuple aliases the caller's storage instead of owning
values: writing through any of its references mutates the caller's cell,
and a mutation of the underlying cell is observed when the tuple is read
back; in the spec's scenario with array = (10,11,12,13) tied into a
tuple and assigned into the destructured tuple over locals a,b,c,d, the
locals read 10,11,12,13, and after setting b = 43 and c = 89 the tuple
reads back as (10,43,89,13). -/
theorem c9_tie_spec (s : store_t) (refs : List Nat) (i : Nat) (v : Int)
    (hi : i < refs.length)
    (hr : refs.get ⟨i, hi⟩ < s.length)
    (hm : i < (readTuple (writeRef s (refs.get ⟨i, hi⟩) v) refs).length) :
    readRef (writeRef s (refs.get ⟨i, hi⟩) v) (refs.get ⟨i, hi⟩) = v
    ∧ (readTuple (writeRef s (refs.get ⟨i, hi⟩) v) refs).get ⟨i, hm⟩ = v
    ∧ (readTuple
        (assignTuple [0, 1, 2, 3, 10, 11, 12, 13] [0, 1, 2, 3]
          (readTuple [0, 1, 2, 3, 10, 11, 12, 13] (tie [4, 5, 6, 7])))
        [0, 1, 2, 3] = [10, 11, 12, 13]
      ∧ readTuple
          (writeRef
            (writeRef
              (assignTuple [0, 1, 2, 3, 10, 11, 12, 13] [0, 1, 2, 3]
                (readTuple [0, 1, 2, 3, 10, 11, 12, 13] (tie [4, 5, 6, 7])))
              1 43)
            2 89)
          [0, 1, 2, 3] = [10, 43, 89, 13]) := by
  refine ⟨readRef_writeRef_self s (refs.get ⟨i, hi⟩) v hr, ?_,
    by decide, by decide⟩
  have hmap : (readTuple (writeRef s (refs.get ⟨i, hi⟩) v) refs).get ⟨i, hm⟩
      = readRef (writeRef s (refs.get ⟨i, hi⟩) v) (refs.get ⟨i, hi⟩) := by
    simp [readTuple]
  rw [hmap]
  exact readRef_writeRef_self s (refs.get ⟨i, hi⟩) v hr

theorem c9_tie_spec_witness :
    readRef (writeRef [10, 11, 12, 13] ([1, 2].get ⟨0, by decide⟩) 43)
      ([1, 2].get ⟨0, by decide⟩) = 43 :=
  (c9_tie_spec [10, 11, 12, 13] [1, 2] 0 43 (by decide) (by decide)
    (by decide)).1

/-- C10: scan and fold agree: the first element of scanl with base b is
b, its last element is the foldl with the same base, and for a non-empty
tuple the last element of the no-base scanl is the no-base foldl. -/
theorem c10_scan_fold_consistent {α β : Type} (t : tuple_t α)
    (f : β → α → β) (b : β) (f1 : α → α → α) (x : α) (s : List α) :
    (scanl t f b).head? = some b
    ∧ (scanl t f b).getLast? = some (foldl t f b)
    ∧ ∀ r, scanl1 f1 (x :: s) = some r →
        r.getLast? = foldl1 f1 (x :: s) := by
  refine ⟨scan_head f b t, scan_getLast f b t, ?_⟩
  intro r hr
  have hr' : scan f1 x s = r := by simpa [scanl1] using hr
  subst hr'
  rw [scan_getLast f1 x s]
  rfl

theorem c10_scan_fold_consistent_witness :
    ([2, 8, 64] : List Nat).getLast? = foldl1 (fun u v => u ^ v) [2, 3, 2] := by
  have h := (c10_scan_fold_consistent ([] : tuple_t Nat) (fun u v => u + v)
    0 (fun u v => u ^ v) 2 [3, 2]).2.2 [2, 8, 64] (by decide)
  exact h

end SuperTuple
